import Mathlib

/-!
Verification of the document-reconstruction and orchestration layer of the
paper_loom repository (backend/app/modules/ocr/).

The Python sources are shallowly embedded as executable Lean definitions:

* `ContentSorter.sort_reading_order` / `_group_by_lines` / `merge_text_blocks`
  (content_sorter.py),
* `MarkdownGenerator.generate` / `_save_region_image` (markdown_generator.py),
* `OCRPipeline.process` / `_check_mineru_available` / `_extract_stats` /
  `_use_fallback` (ocr_pipeline.py),
* `FallbackPipeline.process` / `_generate_stats` / `_create_basic_markdown`
  (fallback_pipeline.py).

Python `sorted(..., key=...)` is a stable sort; it is modelled by Mathlib's
`List.insertionSort` with the non-strict key order, which has the same
stability contract (equal keys keep their original relative order).
External effects (subprocess results, import availability, the filesystem)
are modelled as explicit "world" inputs, and side effects (files written,
directories removed, strategies attempted) as explicit event traces.
-/

namespace PaperLoom

/-! ## content_sorter.py : data model

A detected element is a Python dict holding a bounding box
`bbox = [x1, y1, x2, y2]` plus further payload fields (type, content, ...)
that the sorter never reads; `payload` stands for those. -/

structure Element where
  x1 : Int
  y1 : Int
  x2 : Int
  y2 : Int
  payload : Nat
deriving DecidableEq, Repr

/-- Sort key of step 1 of `sort_reading_order`: `e['bbox'][1]`. -/
def keyY (e : Element) : Int := e.y1

/-- Sort key of step 3 of `sort_reading_order`: `e['bbox'][0]`. -/
def keyX (e : Element) : Int := e.x1

/-- The non-strict order on `key` used by Python's stable `sorted(key=...)`. -/
def keyLE {α : Type} (key : α → Int) (a b : α) : Prop := key a ≤ key b

instance {α : Type} (key : α → Int) : DecidableRel (keyLE key) :=
  fun a b => inferInstanceAs (Decidable (key a ≤ key b))

instance {α : Type} (key : α → Int) : IsTotal α (keyLE key) :=
  ⟨fun a b => Int.le_total (key a) (key b)⟩

instance {α : Type} (key : α → Int) : IsTrans α (keyLE key) :=
  ⟨fun _ _ _ h1 h2 => le_trans h1 h2⟩

/-- Python's `sorted(l, key=key)`: a stable sort by `key`, modelled as
insertion sort with the non-strict key order. -/
def sortByKey {α : Type} (key : α → Int) (l : List α) : List α :=
  l.insertionSort (keyLE key)

/-- `ContentSorter._group_by_lines`, loop body.  `curLine` is
`current_line`, `curY` is `current_y` (the anchor: the y of the first
element of the running line, never updated while appending). -/
def groupAux (tol : Int) (curLine : List Element) (curY : Int) :
    List Element → List (List Element)
  | [] => [curLine]
  | e :: rest =>
    if |keyY e - curY| ≤ tol then
      groupAux tol (curLine ++ [e]) curY rest
    else
      curLine :: groupAux tol [e] (keyY e) rest

/-- `ContentSorter._group_by_lines` (content_sorter.py, lines 41-68). -/
def groupLines (tol : Int) : List Element → List (List Element)
  | [] => []
  | e :: rest => groupAux tol [e] (keyY e) rest

/-- `ContentSorter.sort_reading_order` (content_sorter.py, lines 17-39):
y-sort, group into lines, x-sort inside every line, concatenate.
(The early `return []` of the source agrees with this on `[]`.) -/
def sort_reading_order (tol : Int) (elements : List Element) : List Element :=
  ((groupLines tol (sortByKey keyY elements)).map (sortByKey keyX)).flatten

/-- Strict y-separation of two lines: every element of the first sits
strictly above every element of the second. -/
def Blt (A B : List Element) : Prop :=
  ∀ a ∈ A, ∀ b ∈ B, keyY a < keyY b

/-- The sequence of line lengths `_group_by_lines` produces, computed from
the y-key sequence alone (the grouping never looks at anything else). -/
def groupShapeAux (tol : Int) (n : Nat) (curY : Int) : List Int → List Nat
  | [] => [n]
  | k :: rest =>
    if |k - curY| ≤ tol then groupShapeAux tol (n + 1) curY rest
    else n :: groupShapeAux tol 1 k rest

def groupShape (tol : Int) : List Int → List Nat
  | [] => []
  | k :: rest => groupShapeAux tol 1 k rest

/-- Concatenation of the per-key filters of `l` along a key list `ks`:
the canonical form of a stable sort by `key`. -/
def filtersJoin {α : Type} (key : α → Int) (ks : List Int) (l : List α) : List α :=
  (ks.map (fun k => l.filter (fun e => decide (key e = k)))).flatten

/-! ## content_sorter.py : paragraph merging -/

/-- Input of `merge_text_blocks`: a dict with a `text` and a `bbox`. -/
structure TextBlock where
  text : String
  x1 : Int
  y1 : Int
  x2 : Int
  y2 : Int
deriving DecidableEq, Repr

/-- Output elements of `merge_text_blocks`:
`{'type': 'text', 'content': ..., 'bbox': ...}`. -/
structure MergedBlock where
  btype : String
  content : String
  x1 : Int
  y1 : Int
  x2 : Int
  y2 : Int
deriving DecidableEq, Repr

/-- `ContentSorter._should_merge`: `abs(y2 - y1) <= self.y_tolerance` on the
two blocks' `bbox[1]`. -/
def should_merge (tol : Int) (b1 b2 : TextBlock) : Prop :=
  |b2.y1 - b1.y1| ≤ tol

instance (tol : Int) (b1 b2 : TextBlock) : Decidable (should_merge tol b1 b2) :=
  inferInstanceAs (Decidable (_ ≤ _))

/-- `ContentSorter._merge_bbox`: coordinate-wise min/max union, here acting
on an accumulated `MergedBlock` and the next `TextBlock`. -/
def merge_bbox (cur : MergedBlock) (b : TextBlock) : MergedBlock :=
  { cur with
    x1 := min cur.x1 b.x1
    y1 := min cur.y1 b.y1
    x2 := max cur.x2 b.x2
    y2 := max cur.y2 b.y2 }

/-- The paragraph started from a single block. -/
def startPara (b : TextBlock) : MergedBlock :=
  ⟨"text", b.text, b.x1, b.y1, b.x2, b.y2⟩

/-- Loop of `merge_text_blocks` (content_sorter.py, lines 81-105).
`prev` is `text_blocks[i-1]`, `cur` carries `current_paragraph` and
`current_bbox`. -/
def mergeLoop (tol : Int) (prev : TextBlock) (cur : MergedBlock) :
    List TextBlock → List MergedBlock
  | [] => [cur]
  | b :: rest =>
    if should_merge tol prev b then
      mergeLoop tol b (merge_bbox { cur with content := cur.content ++ " " ++ b.text } b) rest
    else
      cur :: mergeLoop tol b (startPara b) rest

/-- `ContentSorter.merge_text_blocks` (content_sorter.py, lines 70-107). -/
def merge_text_blocks (tol : Int) : List TextBlock → List MergedBlock
  | [] => []
  | b :: rest => mergeLoop tol b (startPara b) rest

/-- Specification-side view of the merge: the maximal runs of consecutive
blocks chained by `should_merge` (comparisons are always between the two
original neighbouring blocks). -/
def runsLoop (tol : Int) (prev : TextBlock) (run : List TextBlock) :
    List TextBlock → List (List TextBlock)
  | [] => [run]
  | b :: rest =>
    if should_merge tol prev b then
      runsLoop tol b (run ++ [b]) rest
    else
      run :: runsLoop tol b [b] rest

/-- The runs that `merge_text_blocks` coalesces. -/
def runs (tol : Int) : List TextBlock → List (List TextBlock)
  | [] => []
  | b :: rest => runsLoop tol b [b] rest

/-- Texts of a run joined by a single space. -/
def joinSpace : List TextBlock → String
  | [] => ""
  | b :: t => t.foldl (fun s x => s ++ " " ++ x.text) b.text

/-- Coordinate-wise min/max union of the bboxes of a run, with the run's
joined text: the one element that replaces the run. -/
def mkParagraph : List TextBlock → MergedBlock
  | [] => ⟨"text", "", 0, 0, 0, 0⟩
  | b :: t => { t.foldl merge_bbox (startPara b) with content := joinSpace (b :: t) }

/-- Total length of the `content` fields of merged blocks. -/
def sumContentLen (l : List MergedBlock) : Nat :=
  (l.map (fun m => m.content.length)).sum

/-- Total length of the `text` fields of input blocks. -/
def sumTextLen (l : List TextBlock) : Nat :=
  (l.map (fun b => b.text.length)).sum

/-! ## markdown_generator.py

`MarkdownGenerator` holds the three numbering counters, set to `0` in
`__init__`.  `generate` walks the ordered elements, appending Markdown
lines and saving cropped region images; saving a file through
`_save_region_image` is modelled by emitting a `SavedImage` record, and
the returned relative path `images/<filename>` is reproduced verbatim. -/

structure MDState where
  table_counter : Nat
  figure_counter : Nat
  formula_counter : Nat
deriving DecidableEq, Repr

/-- The counters as `MarkdownGenerator.__init__` leaves them. -/
def mdInitState : MDState := ⟨0, 0, 0⟩

/-- An element consumed by `generate`: a dict with a `type`, optional
`content` and `latex` (the `.get(..., '')` default is the empty string),
a page index and a bbox. -/
structure MDElement where
  etype : String
  content : String
  latex : String
  page_num : Nat
  x1 : Int
  y1 : Int
  x2 : Int
  y2 : Int
deriving DecidableEq, Repr

/-- One file written by `_save_region_image`: the cropped region of
`page_images[page_num]` at the element's bbox, saved under `filename`
inside the `images/` directory. -/
structure SavedImage where
  filename : String
  page_num : Nat
  x1 : Int
  y1 : Int
  x2 : Int
  y2 : Int
deriving DecidableEq, Repr

/-- One iteration of the `for elem in sorted_elements` loop of
`MarkdownGenerator.generate` (markdown_generator.py, lines 30-78). -/
def genStep (acc : MDState × List String × List SavedImage) (e : MDElement) :
    MDState × List String × List SavedImage :=
  let (st, lines, files) := acc
  if e.etype = "text" ∨ e.etype = "title" then
    if e.etype = "title" then
      (st, lines ++ ["**" ++ e.content ++ "**\n"], files)
    else
      (st, lines ++ [e.content ++ "\n"], files)
  else if e.etype = "formula" then
    if e.latex ≠ "" then
      (st, lines ++ ["$$\n" ++ e.latex ++ "\n$$\n"], files)
    else
      let n := st.formula_counter + 1
      ({ st with formula_counter := n },
       lines ++ ["![Formula " ++ toString n ++ "](images/formula_" ++ toString n ++ ".png)\n"],
       files ++ [⟨"formula_" ++ toString n ++ ".png", e.page_num, e.x1, e.y1, e.x2, e.y2⟩])
  else if e.etype = "table" then
    let n := st.table_counter + 1
    ({ st with table_counter := n },
     lines ++ ["**Table " ++ toString n ++ "**\n",
               "![Table " ++ toString n ++ "](images/table_" ++ toString n ++ ".png)\n"],
     files ++ [⟨"table_" ++ toString n ++ ".png", e.page_num, e.x1, e.y1, e.x2, e.y2⟩])
  else if e.etype = "figure" then
    let n := st.figure_counter + 1
    ({ st with figure_counter := n },
     lines ++ ["**Figure " ++ toString n ++ "**\n",
               "![Figure " ++ toString n ++ "](images/figure_" ++ toString n ++ ".png)\n"],
     files ++ [⟨"figure_" ++ toString n ++ ".png", e.page_num, e.x1, e.y1, e.x2, e.y2⟩])
  else
    (st, lines, files)

/-- `MarkdownGenerator.generate` (markdown_generator.py, lines 22-91): the
element loop, returning the updated counters, the Markdown lines and the
image files written.  The counters are whatever the generator instance
currently holds; `generate` itself never resets them. -/
def generate (st : MDState) (elems : List MDElement) :
    MDState × List String × List SavedImage :=
  elems.foldl genStep (st, [], [])

/-! ## Stats (`_extract_stats` of ocr_pipeline.py and `_generate_stats` of
fallback_pipeline.py) -/

/-- One entry of `content_list`: a page with its `preproc_blocks`, each
block carrying a `type` string (field `btype` here). -/
structure Block where
  btype : String
deriving DecidableEq, Repr

structure Page where
  preproc_blocks : List Block
deriving DecidableEq, Repr

/-- The stats dict.  `_extract_stats` fills the first six fields,
`FallbackPipeline._generate_stats` fills pages/elements/tables/figures/
formulas/word_count/char_count; absent keys are 0. -/
structure Stats where
  total_pages : Nat := 0
  total_elements : Nat := 0
  tables : Nat := 0
  figures : Nat := 0
  formulas : Nat := 0
  total_images : Nat := 0
  word_count : Nat := 0
  char_count : Nat := 0
deriving DecidableEq, Repr

/-- Python `str.count(sub)`: number of non-overlapping occurrences of
`needle`, scanning left to right and skipping past each match.  The fuel
is the haystack length, enough whenever the needle is non-empty. -/
def countOccAux (needle : List Char) : Nat → List Char → Nat
  | 0, _ => 0
  | _, [] => 0
  | fuel + 1, c :: rest =>
    if needle.isPrefixOf (c :: rest) then
      1 + countOccAux needle fuel (List.drop needle.length (c :: rest))
    else
      countOccAux needle fuel rest

def countOcc (needle s : String) : Nat :=
  countOccAux needle.data s.data.length s.data

/-- Inner loop body of pass 1 of `_extract_stats`: classify one block. -/
def statsAddBlock (s : Stats) (b : Block) : Stats :=
  let s := { s with total_elements := s.total_elements + 1 }
  if b.btype = "table" then { s with tables := s.tables + 1 }
  else if b.btype = "image" then { s with figures := s.figures + 1 }
  else if b.btype = "equation" ∨ b.btype = "inline_equation" then
    { s with formulas := s.formulas + 1 }
  else s

/-- Outer loop body of pass 1: one page and its blocks. -/
def statsAddPage (s : Stats) (p : Page) : Stats :=
  p.preproc_blocks.foldl statsAddBlock { s with total_pages := s.total_pages + 1 }

/-- Pass 1 of `OCRPipeline._extract_stats` (ocr_pipeline.py, lines
281-295): count pages and classify `preproc_blocks` by declared type.
(The guard `if content_list and isinstance(content_list, list)` skips the
loop exactly when the manifest is absent, empty, or not a list; all those
cases are modelled by the empty list, over which the loop is a no-op.) -/
def statsPass1 (contentList : List Page) : Stats :=
  contentList.foldl statsAddPage {}

/-- Pass 2 (lines 298-304): if the figure count is still zero, count the
image files on disk.  `imagesOnDisk = some n` models `output_dir` being
given and `output_dir/images` existing with `n` image files. -/
def statsPass2 (s : Stats) (imagesOnDisk : Option Nat) : Stats :=
  if s.figures = 0 then
    match imagesOnDisk with
    | some n => { s with figures := n, total_images := n }
    | none => s
  else s

/-- Pass 3 (lines 307-321): cross-check against the rendered Markdown,
raising (never lowering) figures, tables and formulas. -/
def statsPass3 (s : Stats) (markdown : Option String) : Stats :=
  match markdown with
  | none => s
  | some md =>
    let mdImages := countOcc ("![") md
    let s := if mdImages > s.figures then { s with figures := mdImages } else s
    let mdTables := countOcc ("|--") md + countOcc ("|---") md
    let s := if mdTables > s.tables then { s with tables := mdTables } else s
    let mdFormulas := countOcc ("$$") md / 2 + countOcc ("$") md / 2
    if mdFormulas > s.formulas then { s with formulas := mdFormulas } else s

/-- Pass 4 (lines 324-327): estimate the page count from the Markdown
length when it is still zero. -/
def statsPass4 (s : Stats) (markdown : Option String) : Stats :=
  if s.total_pages = 0 then
    match markdown with
    | some md => { s with total_pages := max 1 (md.length / 800) }
    | none => s
  else s

/-- `OCRPipeline._extract_stats` (ocr_pipeline.py, lines 267-329). -/
def extract_stats (contentList : List Page) (imagesOnDisk : Option Nat)
    (markdown : Option String) : Stats :=
  statsPass4 (statsPass3 (statsPass2 (statsPass1 contentList) imagesOnDisk) markdown) markdown

/-! ## fallback_pipeline.py -/

/-- Python `text.split()` word count as used by `_generate_stats`:
whitespace-separated non-empty words. -/
def wordCount (s : String) : Nat :=
  ((s.split Char.isWhitespace).filter (fun w => w ≠ "")).length

/-- `FallbackPipeline._generate_stats` (fallback_pipeline.py, lines
121-148): page count from the PDF library (0 when unreadable), word and
character counts from the extracted text, and literal zeros for
elements/tables/figures/formulas. -/
def fallback_generate_stats (pageCount : Nat) (text : String) : Stats :=
  { total_pages := pageCount
    total_elements := 0
    tables := 0
    figures := 0
    formulas := 0
    word_count := wordCount text
    char_count := text.length }

/-- The fixed disclaimer line of `_create_basic_markdown`. -/
def disclaimerBanner : String := "> ⚠️ 注意：这是备用方案生成的Markdown"

/-- `FallbackPipeline._create_basic_markdown` (fallback_pipeline.py, lines
102-119). -/
def basicMarkdown (pdfName text now : String) : String :=
  "# " ++ pdfName ++ "\n\n" ++ disclaimerBanner ++
  "\n> MinerU处理失败，使用基本文本提取\n\n## 内容\n\n" ++ text ++
  "\n\n---\n*生成时间: " ++ now ++ "*\n*状态: 备用方案（基本文本提取）*\n"

/-- The outcomes of the external effects touched by `FallbackPipeline`:
which of PyPDF2 / pypdf import successfully, what `_extract_pdf_text`
yields through each (`none` = the extraction raised), the page count the
stats pass reads, the PDF stem and the wall-clock timestamp. -/
structure FallbackWorld where
  pypdf2Available : Bool
  pypdfAvailable : Bool
  pypdf2Text : Option String
  pypdfText : Option String
  pageCount : Nat
  pdfName : String
  now : String
deriving DecidableEq, Repr

/-- Result dict of `FallbackPipeline.process` (`'fallback': True` plus the
markdown and stats; `output_dir` is echoed back and not modelled). -/
structure FallbackResult where
  markdown : String
  stats : Stats
  fallback : Bool
deriving DecidableEq, Repr

/-- The text `_extract_pdf_text` would return: PyPDF2 when importable,
else pypdf (fallback_pipeline.py, lines 71-100). -/
def pickText (w : FallbackWorld) : Option String :=
  if w.pypdf2Available then w.pypdf2Text
  else if w.pypdfAvailable then w.pypdfText
  else none

/-- `FallbackPipeline()` construction plus `process` (fallback_pipeline.py,
lines 26-69): `__init__` raises when neither PDF library is importable;
`process` extracts text, renders the basic Markdown with the disclaimer
banner, writes it, and returns markdown + stats. -/
def fallbackProcess (w : FallbackWorld) : Except String FallbackResult :=
  if ¬ w.pypdf2Available ∧ ¬ w.pypdfAvailable then
    Except.error ("PyPDF2 or pypdf not available for fallback processing")
  else
    match pickText w with
    | none => Except.error ("PDF文本提取失败")
    | some text =>
      Except.ok ⟨basicMarkdown w.pdfName text w.now,
                 fallback_generate_stats w.pageCount text, true⟩

/-! ## ocr_pipeline.py : the orchestrator -/

/-- Ultimate disposition of the primary (MinerU) attempt: the whole
`try` block of `process` either produces a Markdown, a manifest and an
image directory, or raises from `_run_mineru_async` (timeout / non-zero
exit) or `_organize_output` (no Markdown found / all decodes failed). -/
inductive PrimaryOutcome where
  | ok (markdown : String) (contentList : List Page) (imagesOnDisk : Option Nat)
  | timeout
  | exitFailure (code : Int)
  | missingOutput
  | readFailure
deriving DecidableEq, Repr

def PrimaryOutcome.isOk : PrimaryOutcome → Bool
  | .ok _ _ _ => true
  | _ => false

/-- Observable actions of one conversion job.  `tryRasterExtraction` and
`tryPlumberExtraction` stand for the PyMuPDF raster strategy and the
pdfplumber strategy of `PDFProcessor._try_methods` (pdf_processor.py);
`OCRPipeline` has no call path to `PDFProcessor`, so `process` can never
emit them. -/
inductive Ev where
  | probe
  | mkTempDir
  | runPrimary
  | rmTempDir
  | tryBasicExtraction
  | tryRasterExtraction
  | tryPlumberExtraction
deriving DecidableEq, Repr

/-- Result dict of `OCRPipeline.process` (`mineru_success` on the primary
path, `fallback_used` added by `_use_fallback`; absent keys are false). -/
structure ProcResult where
  markdown : String
  stats : Stats
  mineru_success : Bool
  fallback_used : Bool
deriving DecidableEq, Repr

/-- `OCRPipeline._check_mineru_available` (ocr_pipeline.py, lines 29-46):
`probeResult = some c` is the probe's exit code, `none` a missing
executable or probe timeout; only exit code 0 marks MinerU available. -/
def checkMineruAvailable : Option Int → Bool
  | some 0 => true
  | _ => false

/-- The orchestrator state: the availability verdict stored by
`__init__`, fixed for the instance's lifetime. -/
structure OCRPipelineState where
  mineru_available : Bool
deriving DecidableEq, Repr

/-- `OCRPipeline.__init__`: runs the version probe exactly once and stores
the verdict. -/
def initPipeline (probeResult : Option Int) : OCRPipelineState × List Ev :=
  (⟨checkMineruAvailable probeResult⟩, [Ev.probe])

/-- Outcomes of the external effects of one `process` call. -/
structure JobWorld where
  primary : PrimaryOutcome
  fb : FallbackWorld
deriving DecidableEq, Repr

/-- `OCRPipeline._use_fallback` (ocr_pipeline.py, lines 156-168): attempt
the single `FallbackPipeline` strategy; on success add
`fallback_used = True`, on failure re-raise the aggregate error. -/
def useFallback (w : FallbackWorld) : List Ev × Except String ProcResult :=
  ([Ev.tryBasicExtraction],
   match fallbackProcess w with
   | Except.ok r => Except.ok ⟨r.markdown, r.stats, false, true⟩
   | Except.error e => Except.error ("所有处理方案都失败: " ++ e))

instance {ε α : Type} [DecidableEq ε] [DecidableEq α] : DecidableEq (Except ε α) :=
  fun a b =>
    match a, b with
    | Except.error x, Except.error y => decidable_of_iff (x = y) (by simp)
    | Except.error _, Except.ok _ => isFalse (by simp)
    | Except.ok _, Except.error _ => isFalse (by simp)
    | Except.ok x, Except.ok y => decidable_of_iff (x = y) (by simp)

/-- Everything observable about one `process` call: the ordered event
trace, whether `output_dir/mineru_temp` exists on return, and the returned
dict or raised error. -/
structure ProcTrace where
  events : List Ev
  tempDirExists : Bool
  result : Except String ProcResult
deriving DecidableEq, Repr

def exceptIsError {ε α : Type} : Except ε α → Bool
  | Except.error _ => true
  | Except.ok _ => false

/-- `OCRPipeline.process` (ocr_pipeline.py, lines 48-98): if MinerU was
probed unavailable, go straight to the fallback; otherwise create the
temp dir and run MinerU; on success organize the output and extract stats
(the temp dir is left in place); on any failure delete the temp dir and
then run the fallback. -/
def process (p : OCRPipelineState) (w : JobWorld) : ProcTrace :=
  if p.mineru_available then
    match w.primary with
    | PrimaryOutcome.ok md cl imgs =>
      ⟨[Ev.mkTempDir, Ev.runPrimary], true,
       Except.ok ⟨md, extract_stats cl imgs (some md), true, false⟩⟩
    | _ =>
      let f := useFallback w.fb
      ⟨[Ev.mkTempDir, Ev.runPrimary, Ev.rmTempDir] ++ f.1, false, f.2⟩
  else
    let f := useFallback w.fb
    ⟨f.1, false, f.2⟩

/-- The fallback chain claimed by the specification: all three strategies
(basic text extraction, PyMuPDF raster extraction with keyword table
detection, pdfplumber) were attempted. -/
def ChainExhausted (evs : List Ev) : Prop :=
  Ev.tryBasicExtraction ∈ evs ∧ Ev.tryRasterExtraction ∈ evs ∧
    Ev.tryPlumberExtraction ∈ evs

instance (evs : List Ev) : Decidable (ChainExhausted evs) :=
  inferInstanceAs (Decidable (_ ∧ _ ∧ _))

/-- Pointwise order on stats: no field decreases. -/
def statsLE (s t : Stats) : Prop :=
  s.total_pages ≤ t.total_pages ∧ s.total_elements ≤ t.total_elements ∧
  s.tables ≤ t.tables ∧ s.figures ≤ t.figures ∧ s.formulas ≤ t.formulas ∧
  s.total_images ≤ t.total_images ∧ s.word_count ≤ t.word_count ∧
  s.char_count ≤ t.char_count

/-! ## Concrete inputs used by counterexamples and witnesses -/

/-- The three-element scenario of spec §8 (title plus two side-by-side
text blocks). -/
def demoElems : List Element :=
  [⟨0, 0, 100, 20, 0⟩, ⟨0, 25, 100, 40, 1⟩, ⟨110, 25, 200, 40, 2⟩]

/-- Elements at y = 0, 15, 30: consecutive gaps of 15 but a total spread
of 30 over one anchor. -/
def cexElems : List Element :=
  [⟨0, 0, 1, 1, 0⟩, ⟨5, 15, 6, 6, 1⟩, ⟨2, 30, 3, 3, 2⟩]

/-- A single table element (page 0, bbox (1,2,3,4)). -/
def tableElem : MDElement := ⟨"table", "", "", 0, 1, 2, 3, 4⟩

/-- A rendered Markdown with three image references and nothing else the
stats cross-check reacts to. -/
def demoMarkdown : String := "![a](i1.png)\n![b](i2.png)\n![c](i3.png)"

/-- A fallback world where PyPDF2 imports but its extraction raises. -/
def cexFallbackWorld : FallbackWorld :=
  ⟨true, false, none, none, 0, "doc", "now"⟩

/-- A job whose primary attempt times out and whose only implemented
fallback strategy fails. -/
def cexJobWorld : JobWorld := ⟨PrimaryOutcome.timeout, cexFallbackWorld⟩

/-- A fallback world where PyPDF2 extraction succeeds. -/
def okFallbackWorld : FallbackWorld :=
  ⟨true, false, some ("hello world"), none, 2, "paper", "2026-10-12"⟩

/-- A job whose primary attempt times out but whose fallback succeeds. -/
def okJobWorld : JobWorld := ⟨PrimaryOutcome.timeout, okFallbackWorld⟩

/-- The result `process` returns for `okJobWorld` when MinerU is
unavailable. -/
def okFallbackResult : ProcResult :=
  ⟨basicMarkdown ("paper") ("hello world") ("2026-10-12"),
   fallback_generate_stats 2 ("hello world"), false, true⟩

/-! # Lemmas

## Stable sorting by an integer key -/

section SortLemmas

variable {α : Type} (key : α → Int)

theorem mem_sortByKey {x : α} {l : List α} : x ∈ sortByKey key l ↔ x ∈ l :=
  List.mem_insertionSort (keyLE key)

theorem sortByKey_perm (l : List α) : List.Perm (sortByKey key l) l :=
  List.perm_insertionSort (keyLE key) l

theorem sortByKey_sorted (l : List α) : List.Sorted (keyLE key) (sortByKey key l) :=
  List.sorted_insertionSort (keyLE key) l

theorem sortByKey_of_sorted {l : List α} (h : List.Sorted (keyLE key) l) :
    sortByKey key l = l :=
  List.Sorted.insertionSort_eq h

theorem sortByKey_length (l : List α) : (sortByKey key l).length = l.length :=
  List.length_insertionSort (keyLE key) l

theorem orderedInsert_cons_pos {a b : α} (t : List α) (h : keyLE key a b) :
    (b :: t).orderedInsert (keyLE key) a = a :: b :: t := by
  show (if keyLE key a b then a :: b :: t else b :: t.orderedInsert (keyLE key) a) = _
  rw [if_pos h]

theorem orderedInsert_cons_neg {a b : α} (t : List α) (h : ¬ keyLE key a b) :
    (b :: t).orderedInsert (keyLE key) a = b :: t.orderedInsert (keyLE key) a := by
  show (if keyLE key a b then a :: b :: t else b :: t.orderedInsert (keyLE key) a) = _
  rw [if_neg h]

/-- Inserting an element no larger than everything in the list puts it in
front. -/
theorem orderedInsert_of_forall_le (a : α) (m : List α)
    (h : ∀ b ∈ m, key a ≤ key b) :
    m.orderedInsert (keyLE key) a = a :: m := by
  cases m with
  | nil => rfl
  | cons b t => exact orderedInsert_cons_pos key t (h b (List.mem_cons_self b t))

/-- Everything in the list having the same key, a stable sort is the
identity. -/
theorem sortByKey_of_const {l : List α} {c : Int} (h : ∀ e ∈ l, key e = c) :
    sortByKey key l = l := by
  refine sortByKey_of_sorted key (List.pairwise_of_forall_mem_list ?_)
  intro a ha b hb
  show key a ≤ key b
  rw [h a ha, h b hb]

theorem orderedInsert_append_of_lt (a : α) (m z : List α)
    (h : ∀ b ∈ m, key b < key a) :
    (m ++ z).orderedInsert (keyLE key) a = m ++ z.orderedInsert (keyLE key) a := by
  induction m with
  | nil => rfl
  | cons c m ih =>
    have hc : ¬ keyLE key a c := not_le.mpr (h c (List.mem_cons_self c m))
    simp only [List.cons_append, List.orderedInsert, if_neg hc, List.append_eq]
    rw [ih (fun b hb => h b (List.mem_cons_of_mem c hb))]

theorem orderedInsert_append_of_gt (a : α) (m z : List α)
    (h : ∀ c ∈ z, key a < key c) :
    (m ++ z).orderedInsert (keyLE key) a = m.orderedInsert (keyLE key) a ++ z := by
  induction m with
  | nil =>
    cases z with
    | nil => rfl
    | cons c t =>
      simp only [List.nil_append, List.orderedInsert,
        if_pos (show keyLE key a c from le_of_lt (h c (List.mem_cons_self c t)))]
      rfl
  | cons c m ih =>
    by_cases hac : keyLE key a c
    · simp only [List.cons_append, List.orderedInsert, if_pos hac, List.append_eq]
    · simp only [List.cons_append, List.orderedInsert, if_neg hac, ih, List.append_eq]

/-- A stable sort of a concatenation whose parts are strictly separated by
key sorts the parts independently. -/
theorem sortByKey_append (l₁ l₂ : List α)
    (h : ∀ a ∈ l₁, ∀ b ∈ l₂, key a < key b) :
    sortByKey key (l₁ ++ l₂) = sortByKey key l₁ ++ sortByKey key l₂ := by
  induction l₁ with
  | nil => rfl
  | cons a l₁ ih =>
    show ((l₁ ++ l₂).insertionSort (keyLE key)).orderedInsert (keyLE key) a = _
    rw [show (l₁ ++ l₂).insertionSort (keyLE key) = sortByKey key (l₁ ++ l₂) from rfl,
      ih (fun x hx => h x (List.mem_cons_of_mem a hx)),
      orderedInsert_append_of_gt key a _ _
        (fun c hc => h a (List.mem_cons_self a l₁) c ((mem_sortByKey key).mp hc))]
    rfl

/-- Filtering commutes with insertion into a sorted list. -/
theorem filter_orderedInsert (p : α → Bool) (a : α) (m : List α)
    (hm : List.Sorted (keyLE key) m) :
    (m.orderedInsert (keyLE key) a).filter p =
      if p a then (m.filter p).orderedInsert (keyLE key) a else m.filter p := by
  induction m with
  | nil =>
    by_cases hp : p a <;> simp [List.orderedInsert, List.filter, hp]
  | cons b t ih =>
    by_cases hab : keyLE key a b
    · have hfront : ∀ c ∈ (b :: t).filter p, key a ≤ key c := by
        intro c hc
        have hc' : c ∈ b :: t := List.mem_of_mem_filter hc
        rcases List.mem_cons.mp hc' with rfl | hct
        · exact hab
        · exact le_trans hab (List.rel_of_sorted_cons hm c hct)
      rw [orderedInsert_cons_pos key t hab]
      by_cases hp : p a
      · rw [if_pos hp, orderedInsert_of_forall_le key a _ hfront]
        simp [List.filter, hp]
      · rw [if_neg hp]
        simp [List.filter, hp]
    · rw [orderedInsert_cons_neg key t hab]
      by_cases hpb : p b
      · simp only [List.filter_cons_of_pos hpb, ih hm.of_cons]
        by_cases hp : p a
        · rw [if_pos hp, if_pos hp, orderedInsert_cons_neg key _ hab]
        · rw [if_neg hp, if_neg hp]
      · simp only [List.filter_cons_of_neg hpb, ih hm.of_cons]

theorem filter_sortByKey (p : α → Bool) (l : List α) :
    (sortByKey key l).filter p = sortByKey key (l.filter p) := by
  induction l with
  | nil => rfl
  | cons a t ih =>
    have h1 : sortByKey key (a :: t) = (sortByKey key t).orderedInsert (keyLE key) a := rfl
    rw [h1, filter_orderedInsert key p a _ (sortByKey_sorted key t), ih]
    by_cases hp : p a
    · rw [if_pos hp, List.filter_cons_of_pos hp]
      rfl
    · rw [if_neg hp, List.filter_cons_of_neg hp]

theorem filtersJoin_nil (ks : List Int) : filtersJoin key ks ([] : List α) = [] := by
  induction ks with
  | nil => rfl
  | cons k ks ih =>
    simp only [filtersJoin, List.map_cons, List.flatten_cons, List.filter_nil,
      List.nil_append]
    exact ih

theorem key_eq_of_mem_filter {k : Int} {l : List α} {c : α}
    (hc : c ∈ l.filter (fun e => decide (key e = k))) : key c = k :=
  of_decide_eq_true (List.mem_filter.mp hc).2

theorem filtersJoin_cons (k : Int) (ks : List Int) (l : List α) :
    filtersJoin key (k :: ks) l =
      l.filter (fun e => decide (key e = k)) ++ filtersJoin key ks l := rfl

theorem filtersJoin_cons_of_forall_ne (a : α) (t : List α) (ks : List Int)
    (h : ∀ k' ∈ ks, ¬ key a = k') :
    filtersJoin key ks (a :: t) = filtersJoin key ks t := by
  unfold filtersJoin
  refine congrArg List.flatten (List.map_congr_left ?_)
  intro k' hk'
  exact List.filter_cons_of_neg (by simpa using h k' hk')

theorem mem_of_mem_filtersJoin {ks : List Int} {l : List α} {c : α}
    (hc : c ∈ filtersJoin key ks l) : c ∈ l ∧ key c ∈ ks := by
  rcases List.mem_flatten.mp hc with ⟨b, hb, hcb⟩
  rcases List.mem_map.mp hb with ⟨k, hk, rfl⟩
  exact ⟨List.mem_of_mem_filter hcb, by rw [key_eq_of_mem_filter key hcb]; exact hk⟩

/-- Inserting into the canonical filters-concatenation form keeps the
canonical form. -/
theorem orderedInsert_filtersJoin (a : α) (t : List α) (ks : List Int)
    (hks : List.Pairwise (· < ·) ks) (hmem : key a ∈ ks) :
    (filtersJoin key ks t).orderedInsert (keyLE key) a = filtersJoin key ks (a :: t) := by
  induction ks with
  | nil => cases hmem
  | cons k ks ih =>
    rw [filtersJoin_cons, filtersJoin_cons]
    by_cases hk : key a = k
    · have hfa : (fun e => decide (key e = k)) a = true := decide_eq_true hk
      have hfront : ∀ c ∈ t.filter (fun e => decide (key e = k)) ++
          filtersJoin key ks t, key a ≤ key c := by
        intro c hc
        rcases List.mem_append.mp hc with hc | hc
        · rw [hk, key_eq_of_mem_filter key hc]
        · have hcks := (mem_of_mem_filtersJoin key hc).2
          have : k < key c := List.rel_of_pairwise_cons hks hcks
          rw [hk]; exact le_of_lt this
      rw [filtersJoin_cons_of_forall_ne key a t ks (by
          intro k' hk' hEq
          exact absurd (hEq ▸ (hk ▸ List.rel_of_pairwise_cons hks hk')) (lt_irrefl _)),
        orderedInsert_of_forall_le key a _ hfront]
      simp [List.filter_cons, hk]
    · have hmem' : key a ∈ ks := by
        rcases List.mem_cons.mp hmem with h | h
        · exact absurd h hk
        · exact h
      have hklt : k < key a := List.rel_of_pairwise_cons hks hmem'
      have hlow : ∀ b ∈ t.filter (fun e => decide (key e = k)), key b < key a := by
        intro b hb
        rw [key_eq_of_mem_filter key hb]
        exact hklt
      rw [orderedInsert_append_of_lt key a _ _ hlow, ih hks.of_cons hmem']
      simp [List.filter_cons, hk]

/-- Canonical form of a stable sort: concatenate the filters along any
strictly increasing key list covering the keys of the input. -/
theorem sortByKey_eq_filtersJoin (l : List α) (ks : List Int)
    (hks : List.Pairwise (· < ·) ks) (hcov : ∀ e ∈ l, key e ∈ ks) :
    sortByKey key l = filtersJoin key ks l := by
  induction l with
  | nil => exact (filtersJoin_nil key ks).symm
  | cons a t ih =>
    have h1 : sortByKey key (a :: t) = (sortByKey key t).orderedInsert (keyLE key) a := rfl
    rw [h1, ih (fun e he => hcov e (List.mem_cons_of_mem a he)),
      orderedInsert_filtersJoin key a t ks hks (hcov a (List.mem_cons_self a t))]

/-- A stable sort is determined by the per-key filters of its input. -/
theorem sortByKey_eq_of_filters_eq (l₁ l₂ : List α)
    (h : ∀ k : Int, l₁.filter (fun e => decide (key e = k)) =
      l₂.filter (fun e => decide (key e = k))) :
    sortByKey key l₁ = sortByKey key l₂ := by
  classical
  set ks : List Int := sortByKey id ((l₁.map key ++ l₂.map key).dedup) with hksdef
  have hsorted : List.Pairwise (fun a b : Int => a ≤ b) ks := sortByKey_sorted id _
  have hnodup : ks.Nodup :=
    ((sortByKey_perm id _).symm).nodup (List.nodup_dedup _)
  have hks : List.Pairwise (· < ·) ks :=
    (hsorted.and hnodup).imp (fun hab => lt_of_le_of_ne hab.1 hab.2)
  have hcov₁ : ∀ e ∈ l₁, key e ∈ ks := by
    intro e he
    refine (mem_sortByKey id).mpr ((List.mem_dedup).mpr ?_)
    exact List.mem_append_left _ (List.mem_map_of_mem key he)
  have hcov₂ : ∀ e ∈ l₂, key e ∈ ks := by
    intro e he
    refine (mem_sortByKey id).mpr ((List.mem_dedup).mpr ?_)
    exact List.mem_append_right _ (List.mem_map_of_mem key he)
  rw [sortByKey_eq_filtersJoin key l₁ ks hks hcov₁,
    sortByKey_eq_filtersJoin key l₂ ks hks hcov₂]
  unfold filtersJoin
  exact congrArg List.flatten (List.map_congr_left (fun k _ => h k))

/-- Stability across a second sort: re-sorting by `key₂` and then again by
`key₁` restores a `key₁`-sorted list, provided the original list was
`key₂`-sorted (so that equal-`key₁` elements are already in `key₂` order). -/
theorem sortByKey_sortByKey_sortByKey (key₁ key₂ : α → Int) (l : List α)
    (hl : List.Sorted (keyLE key₂) l) :
    sortByKey key₁ (sortByKey key₂ (sortByKey key₁ l)) = sortByKey key₁ l := by
  have hfilters : ∀ k : Int,
      (sortByKey key₂ (sortByKey key₁ l)).filter (fun e => decide (key₁ e = k)) =
        (sortByKey key₁ l).filter (fun e => decide (key₁ e = k)) := by
    intro k
    have hconstfix : (sortByKey key₁ l).filter (fun e => decide (key₁ e = k)) =
        l.filter (fun e => decide (key₁ e = k)) := by
      rw [filter_sortByKey key₁]
      exact sortByKey_of_const key₁ (fun e he => key_eq_of_mem_filter key₁ he)
    rw [filter_sortByKey key₂, hconstfix,
      sortByKey_of_sorted key₂ (hl.filter _)]
  rw [sortByKey_eq_of_filters_eq key₁ _ _ hfilters,
    sortByKey_of_sorted key₁ (sortByKey_sorted key₁ l)]

end SortLemmas

/-! ## Lemmas about `_group_by_lines` -/

theorem flatten_groupAux (tol : Int) :
    ∀ (rest cur : List Element) (curY : Int),
      (groupAux tol cur curY rest).flatten = cur ++ rest := by
  intro rest
  induction rest with
  | nil => intro cur curY; simp [groupAux]
  | cons e rest ih =>
    intro cur curY
    by_cases h : |keyY e - curY| ≤ tol
    · rw [groupAux, if_pos h, ih]
      simp
    · rw [groupAux, if_neg h]
      simp only [List.flatten_cons, ih]
      simp

theorem flatten_groupLines (tol : Int) (l : List Element) :
    (groupLines tol l).flatten = l := by
  cases l with
  | nil => rfl
  | cons e rest =>
    rw [groupLines, flatten_groupAux]
    rfl

theorem mem_of_mem_groupAux {tol : Int} {rest cur : List Element} {curY : Int}
    {B : List Element} {b : Element} (hB : B ∈ groupAux tol cur curY rest)
    (hb : b ∈ B) : b ∈ cur ++ rest := by
  rw [← flatten_groupAux tol rest cur curY]
  exact List.mem_flatten.mpr ⟨B, hB, hb⟩

theorem groupAux_ne_nil {tol : Int} :
    ∀ {rest cur : List Element} {curY : Int}, cur ≠ [] →
      ∀ B ∈ groupAux tol cur curY rest, B ≠ [] := by
  intro rest
  induction rest with
  | nil =>
    intro cur curY hcur B hB
    rw [groupAux] at hB
    rcases List.mem_singleton.mp hB with rfl
    exact hcur
  | cons e rest ih =>
    intro cur curY hcur B hB
    by_cases h : |keyY e - curY| ≤ tol
    · rw [groupAux, if_pos h] at hB
      exact ih (by simp) B hB
    · rw [groupAux, if_neg h] at hB
      rcases List.mem_cons.mp hB with rfl | hB
      · exact hcur
      · exact ih (by simp) B hB

/-- Every produced line carries its anchor at its head, and every element
of the line is within `tol` of the anchor's y. -/
theorem groupAux_anchor {tol : Int} (htol : 0 ≤ tol) :
    ∀ (rest cur : List Element) (a : Element), cur.head? = some a →
      (∀ c ∈ cur, |keyY c - keyY a| ≤ tol) →
      ∀ B ∈ groupAux tol cur (keyY a) rest,
        ∃ b, B.head? = some b ∧ ∀ e ∈ B, |keyY e - keyY b| ≤ tol := by
  intro rest
  induction rest with
  | nil =>
    intro cur a hhead hbound B hB
    rw [groupAux] at hB
    rcases List.mem_singleton.mp hB with rfl
    exact ⟨a, hhead, hbound⟩
  | cons e rest ih =>
    intro cur a hhead hbound B hB
    by_cases h : |keyY e - keyY a| ≤ tol
    · rw [groupAux, if_pos h] at hB
      refine ih (cur ++ [e]) a ?_ ?_ B hB
      · cases cur with
        | nil => cases hhead
        | cons c t => simpa using hhead
      · intro c hc
        rcases List.mem_append.mp hc with hc | hc
        · exact hbound c hc
        · rcases List.mem_singleton.mp hc with rfl
          exact h
    · rw [groupAux, if_neg h] at hB
      rcases List.mem_cons.mp hB with rfl | hB
      · exact ⟨a, hhead, hbound⟩
      · refine ih [e] e rfl ?_ B hB
        intro c hc
        rcases List.mem_singleton.mp hc with rfl
        simpa using htol

/-- Lines are contiguous chunks of the input, hence inherit sortedness. -/
theorem groupAux_sorted {tol : Int} :
    ∀ (rest cur : List Element) (curY : Int),
      List.Pairwise (keyLE keyY) (cur ++ rest) →
      ∀ B ∈ groupAux tol cur curY rest, List.Pairwise (keyLE keyY) B := by
  intro rest
  induction rest with
  | nil =>
    intro cur curY hp B hB
    rcases List.mem_singleton.mp hB with rfl
    exact hp.sublist (List.sublist_append_left _ _)
  | cons e rest ih =>
    intro cur curY hp B hB
    by_cases h : |keyY e - curY| ≤ tol
    · rw [groupAux, if_pos h] at hB
      refine ih (cur ++ [e]) curY ?_ B hB
      simpa [List.append_assoc] using hp
    · rw [groupAux, if_neg h] at hB
      rcases List.mem_cons.mp hB with rfl | hB
      · exact hp.sublist (List.sublist_append_left _ _)
      · refine ih [e] (keyY e) ?_ B hB
        exact hp.sublist (List.sublist_append_right _ _)

/-- Strict separation of the produced lines: grouping a y-sorted list with
a non-negative tolerance yields lines whose y-ranges strictly increase. -/
theorem groupAux_sep {tol : Int} (htol : 0 ≤ tol) :
    ∀ (rest cur : List Element) (curY : Int),
      List.Pairwise (keyLE keyY) (cur ++ rest) →
      (∀ c ∈ cur, keyY c ≤ curY + tol) →
      (∀ r ∈ rest, curY ≤ keyY r) →
      List.Pairwise Blt (groupAux tol cur curY rest) := by
  intro rest
  induction rest with
  | nil =>
    intro cur curY _ _ _
    rw [groupAux]
    exact List.pairwise_singleton _ _
  | cons e rest ih =>
    intro cur curY hp hbound hmono
    by_cases h : |keyY e - curY| ≤ tol
    · rw [groupAux, if_pos h]
      refine ih (cur ++ [e]) curY (by simpa [List.append_assoc] using hp) ?_ ?_
      · intro c hc
        rcases List.mem_append.mp hc with hc | hc
        · exact hbound c hc
        · rcases List.mem_singleton.mp hc with rfl
          have := (abs_le.mp h).2
          omega
      · intro r hr
        exact hmono r (List.mem_cons_of_mem e hr)
    · rw [groupAux, if_neg h]
      have hge : curY ≤ keyY e := hmono e (List.mem_cons_self e rest)
      have hgt : curY + tol < keyY e := by
        by_contra hcon
        push_neg at hcon
        exact h (by rw [abs_of_nonneg (by omega)]; omega)
      have hpe : List.Pairwise (keyLE keyY) (e :: rest) :=
        hp.sublist (List.sublist_append_right _ _)
      refine List.Pairwise.cons ?_ (ih [e] (keyY e) ?_ ?_ ?_)
      · intro B hB a haB b hbB
        have hbmem : b ∈ [e] ++ rest := mem_of_mem_groupAux hB hbB
        have hb2 : keyY e ≤ keyY b := by
          rcases List.mem_append.mp hbmem with hx | hx
          · rcases List.mem_singleton.mp hx with rfl
            exact le_refl _
          · exact List.rel_of_pairwise_cons hpe hx
        have ha2 : keyY a ≤ curY + tol := hbound a haB
        omega
      · exact hpe
      · intro c hc
        rcases List.mem_singleton.mp hc with rfl
        omega
      · intro r hr
        exact List.rel_of_pairwise_cons hpe hr

/-- The first produced line starts with the current line's first element. -/
theorem groupAux_head (tol : Int) :
    ∀ (rest cur : List Element) (curY : Int), cur ≠ [] →
      ∃ B, (groupAux tol cur curY rest).head? = some B ∧ B.head? = cur.head? := by
  intro rest
  induction rest with
  | nil => intro cur curY _; exact ⟨cur, rfl, rfl⟩
  | cons e rest ih =>
    intro cur curY hcur
    by_cases h : |keyY e - curY| ≤ tol
    · rw [groupAux, if_pos h]
      obtain ⟨B, hB1, hB2⟩ := ih (cur ++ [e]) curY (by simp)
      refine ⟨B, hB1, ?_⟩
      rw [hB2]
      cases cur with
      | nil => exact absurd rfl hcur
      | cons c t => rfl
    · rw [groupAux, if_neg h]
      exact ⟨cur, rfl, rfl⟩

/-- Consecutive lines are separated: the anchor of each line is farther
than `tol` from the previous line's anchor (that is exactly the `else`
branch that starts a new line). -/
theorem groupAux_chain (tol : Int) :
    ∀ (rest cur : List Element) (a : Element), cur.head? = some a →
      List.Chain'
        (fun A B => ∃ x y, A.head? = some x ∧ B.head? = some y ∧
          tol < |keyY y - keyY x|)
        (groupAux tol cur (keyY a) rest) := by
  intro rest
  induction rest with
  | nil =>
    intro cur a _
    rw [groupAux]
    exact List.chain'_singleton _
  | cons e rest ih =>
    intro cur a hhead
    by_cases h : |keyY e - keyY a| ≤ tol
    · rw [groupAux, if_pos h]
      refine ih (cur ++ [e]) a ?_
      cases cur with
      | nil => cases hhead
      | cons c t => simpa using hhead
    · rw [groupAux, if_neg h]
      refine List.chain'_cons'.mpr ⟨?_, ih [e] e rfl⟩
      intro B hB
      obtain ⟨B', hB'1, hB'2⟩ := groupAux_head tol rest [e] (keyY e) (by simp)
      rw [hB'1] at hB
      cases hB
      exact ⟨a, e, hhead, hB'2, not_le.mp h⟩

/-- The line lengths depend only on the y-key sequence. -/
theorem map_length_groupAux (tol : Int) :
    ∀ (rest cur : List Element) (curY : Int),
      (groupAux tol cur curY rest).map List.length =
        groupShapeAux tol cur.length curY (rest.map keyY) := by
  intro rest
  induction rest with
  | nil => intro cur curY; rfl
  | cons e rest ih =>
    intro cur curY
    by_cases h : |keyY e - curY| ≤ tol
    · rw [groupAux, if_pos h, List.map_cons]
      simp only [groupShapeAux]
      rw [if_pos h, ih]
      simp
    · rw [groupAux, if_neg h, List.map_cons]
      simp only [groupShapeAux]
      rw [if_neg h, ih]
      simp

theorem map_length_groupLines (tol : Int) (l : List Element) :
    (groupLines tol l).map List.length = groupShape tol (l.map keyY) := by
  cases l with
  | nil => rfl
  | cons e rest =>
    rw [groupLines, List.map_cons, groupShape, map_length_groupAux]
    rfl

/-- A list of blocks is determined by its concatenation and its block
lengths. -/
theorem blocks_eq_of_flatten_eq {α : Type} :
    ∀ (A B : List (List α)), A.flatten = B.flatten →
      A.map List.length = B.map List.length → A = B := by
  intro A
  induction A with
  | nil =>
    intro B _ hlen
    cases B with
    | nil => rfl
    | cons Y B => cases hlen
  | cons X A ih =>
    intro B hflat hlen
    cases B with
    | nil => cases hlen
    | cons Y B =>
      simp only [List.map_cons, List.cons.injEq] at hlen
      simp only [List.flatten_cons] at hflat
      obtain ⟨hXY, hrest⟩ := List.append_inj hflat hlen.1
      rw [hXY, ih B hrest hlen.2]

/-- Two sorted permutations of each other carry the same key sequence. -/
theorem map_key_eq_of_perm_of_sorted {α : Type} (key : α → Int)
    {m₁ m₂ : List α} (hp : List.Perm m₁ m₂)
    (h₁ : List.Sorted (keyLE key) m₁) (h₂ : List.Sorted (keyLE key) m₂) :
    m₁.map key = m₂.map key :=
  List.eq_of_perm_of_sorted (hp.map key)
    (List.pairwise_map.mpr h₁) (List.pairwise_map.mpr h₂)

/-- Sorting each block of a strictly separated family and concatenating is
the same as sorting the concatenation. -/
theorem sortByKey_flatten_of_sep {L : List (List Element)}
    (hsep : List.Pairwise Blt L) :
    sortByKey keyY L.flatten = (L.map (sortByKey keyY)).flatten := by
  induction L with
  | nil => rfl
  | cons B L ih =>
    simp only [List.flatten_cons, List.map_cons]
    rw [sortByKey_append keyY B L.flatten (fun a ha b hb => by
      rcases List.mem_flatten.mp hb with ⟨C, hC, hbC⟩
      exact List.rel_of_pairwise_cons hsep hC a ha b hbC),
      ih hsep.of_cons]

theorem Blt_map_sortX {L : List (List Element)} (hsep : List.Pairwise Blt L) :
    List.Pairwise Blt (L.map (sortByKey keyX)) := by
  refine hsep.map (sortByKey keyX) ?_
  intro A B hAB a ha b hb
  exact hAB a ((mem_sortByKey keyX).mp ha) b ((mem_sortByKey keyX).mp hb)

theorem flatten_map_perm {α : Type} (f : List α → List α)
    (hf : ∀ B, List.Perm (f B) B) (L : List (List α)) :
    List.Perm ((L.map f).flatten) L.flatten := by
  induction L with
  | nil => exact List.Perm.refl _
  | cons B L ih =>
    simp only [List.map_cons, List.flatten_cons]
    exact (hf B).append ih

theorem groupLines_sep {tol : Int} (htol : 0 ≤ tol) {l : List Element}
    (hl : List.Sorted (keyLE keyY) l) :
    List.Pairwise Blt (groupLines tol l) := by
  cases l with
  | nil => exact List.Pairwise.nil
  | cons e rest =>
    refine groupAux_sep htol rest [e] (keyY e) hl ?_ ?_
    · intro c hc
      rcases List.mem_singleton.mp hc with rfl
      omega
    · intro r hr
      exact List.rel_of_pairwise_cons hl hr

theorem groupLines_sorted_blocks {tol : Int} {l : List Element}
    (hl : List.Sorted (keyLE keyY) l) :
    ∀ B ∈ groupLines tol l, List.Pairwise (keyLE keyY) B := by
  cases l with
  | nil => intro B hB; cases hB
  | cons e rest => exact groupAux_sorted rest [e] (keyY e) hl

/-- The reading-order sort permutes its input. -/
theorem sort_reading_order_is_perm (tol : Int) (l : List Element) :
    List.Perm (sort_reading_order tol l) l :=
  ((flatten_map_perm (sortByKey keyX) (sortByKey_perm keyX)
      (groupLines tol (sortByKey keyY l))).trans
    ((flatten_groupLines tol (sortByKey keyY l)).symm ▸
      List.Perm.refl _)).trans (sortByKey_perm keyY l)

/-- The reading-order sort is idempotent (for a non-negative tolerance). -/
theorem sort_reading_order_idem_aux {tol : Int} (htol : 0 ≤ tol) (l : List Element) :
    sort_reading_order tol (sort_reading_order tol l) = sort_reading_order tol l := by
  have hsorted : List.Sorted (keyLE keyY) (sortByKey keyY l) := sortByKey_sorted keyY l
  set s := sortByKey keyY l with hs
  set L := groupLines tol s with hLdef
  have hsep : List.Pairwise Blt L := groupLines_sep htol hsorted
  have hblocks : ∀ B ∈ L, List.Pairwise (keyLE keyY) B :=
    groupLines_sorted_blocks hsorted
  have hout : sort_reading_order tol l = (L.map (sortByKey keyX)).flatten := rfl
  have hA : sortByKey keyY ((L.map (sortByKey keyX)).flatten)
      = (L.map (fun B => sortByKey keyY (sortByKey keyX B))).flatten := by
    rw [sortByKey_flatten_of_sep (Blt_map_sortX hsep), List.map_map]
    rfl
  have hkeys : ∀ B ∈ L, (sortByKey keyY (sortByKey keyX B)).map keyY = B.map keyY := by
    intro B hB
    exact map_key_eq_of_perm_of_sorted keyY
      ((sortByKey_perm keyY _).trans (sortByKey_perm keyX B))
      (sortByKey_sorted keyY _) (hblocks B hB)
  have hkeyseq : ((L.map (fun B => sortByKey keyY (sortByKey keyX B))).flatten).map keyY
      = s.map keyY := by
    rw [List.map_flatten, List.map_map]
    have : (L.map (List.map keyY ∘ fun B => sortByKey keyY (sortByKey keyX B)))
        = L.map (List.map keyY) := by
      refine List.map_congr_left ?_
      intro B hB
      exact hkeys B hB
    rw [this, ← List.map_flatten, flatten_groupLines]
  have hB2 : groupLines tol (sortByKey keyY ((L.map (sortByKey keyX)).flatten))
      = L.map (fun B => sortByKey keyY (sortByKey keyX B)) := by
    refine blocks_eq_of_flatten_eq _ _ ?_ ?_
    · rw [flatten_groupLines, hA]
    · rw [map_length_groupLines, hA, hkeyseq, List.map_map]
      have h1 : groupShape tol (s.map keyY) = L.map List.length :=
        (map_length_groupLines tol s).symm
      rw [h1]
      refine (List.map_congr_left ?_).symm
      intro B _
      show (sortByKey keyY (sortByKey keyX B)).length = B.length
      rw [sortByKey_length, sortByKey_length]
  show ((groupLines tol (sortByKey keyY ((L.map (sortByKey keyX)).flatten))).map
      (sortByKey keyX)).flatten = (L.map (sortByKey keyX)).flatten
  rw [hB2, List.map_map]
  refine congrArg List.flatten (List.map_congr_left ?_)
  intro B hB
  show sortByKey keyX (sortByKey keyY (sortByKey keyX B)) = sortByKey keyX B
  exact sortByKey_sortByKey_sortByKey keyX keyY B (hblocks B hB)

/-! ## Lemmas about `merge_text_blocks` -/

theorem mkParagraph_singleton (b : TextBlock) : mkParagraph [b] = startPara b := rfl

theorem mkParagraph_append (run : List TextBlock) (hrun : run ≠ []) (b : TextBlock) :
    mkParagraph (run ++ [b]) =
      merge_bbox { mkParagraph run with
        content := (mkParagraph run).content ++ " " ++ b.text } b := by
  cases run with
  | nil => exact absurd rfl hrun
  | cons h t =>
    simp only [mkParagraph, List.cons_append, joinSpace, List.foldl_append,
      List.foldl_cons, List.foldl_nil, merge_bbox]

theorem mergeLoop_eq_map_runsLoop (tol : Int) :
    ∀ (rest : List TextBlock) (prev : TextBlock) (run : List TextBlock),
      run ≠ [] →
      mergeLoop tol prev (mkParagraph run) rest =
        (runsLoop tol prev run rest).map mkParagraph := by
  intro rest
  induction rest with
  | nil => intro prev run _; rfl
  | cons b rest ih =>
    intro prev run hrun
    by_cases h : should_merge tol prev b
    · rw [mergeLoop, if_pos h, runsLoop, if_pos h, ← mkParagraph_append run hrun b,
        ih b (run ++ [b]) (by simp)]
    · rw [mergeLoop, if_neg h, runsLoop, if_neg h, List.map_cons,
        ← mkParagraph_singleton, ih b [b] (by simp)]

/-- `merge_text_blocks` replaces every maximal `should_merge`-run by the
single block with the run's space-joined text and min/max bbox union. -/
theorem merge_text_blocks_eq_runs (tol : Int) (blocks : List TextBlock) :
    merge_text_blocks tol blocks = (runs tol blocks).map mkParagraph := by
  cases blocks with
  | nil => rfl
  | cons b rest =>
    rw [merge_text_blocks, runs, ← mkParagraph_singleton,
      mergeLoop_eq_map_runsLoop tol rest b [b] (by simp)]

theorem merge_bbox_content (c : MergedBlock) (b : TextBlock) :
    (merge_bbox c b).content = c.content := rfl

theorem startPara_content (b : TextBlock) : (startPara b).content = b.text := rfl

theorem sumTextLen_cons (b : TextBlock) (rest : List TextBlock) :
    sumTextLen (b :: rest) = b.text.length + sumTextLen rest := by
  simp [sumTextLen]

theorem sumContentLen_cons (m : MergedBlock) (rest : List MergedBlock) :
    sumContentLen (m :: rest) = m.content.length + sumContentLen rest := by
  simp [sumContentLen]

theorem space_length : (" " : String).length = 1 := rfl

theorem mergeLoop_count (tol : Int) :
    ∀ (rest : List TextBlock) (prev : TextBlock) (cur : MergedBlock),
      sumContentLen (mergeLoop tol prev cur rest) +
          (mergeLoop tol prev cur rest).length =
        cur.content.length + sumTextLen rest + rest.length + 1 := by
  intro rest
  induction rest with
  | nil =>
    intro prev cur
    simp [mergeLoop, sumContentLen, sumTextLen]
  | cons b rest ih =>
    intro prev cur
    by_cases h : should_merge tol prev b
    · rw [mergeLoop, if_pos h, ih]
      rw [merge_bbox_content]
      simp only [String.length_append, space_length, sumTextLen_cons,
        List.length_cons]
      omega
    · rw [mergeLoop, if_neg h, sumContentLen_cons, List.length_cons]
      have hrec := ih b (startPara b)
      rw [startPara_content] at hrec
      rw [sumTextLen_cons, List.length_cons]
      omega

theorem mergeLoop_length_le (tol : Int) :
    ∀ (rest : List TextBlock) (prev : TextBlock) (cur : MergedBlock),
      (mergeLoop tol prev cur rest).length ≤ rest.length + 1 := by
  intro rest
  induction rest with
  | nil => intro prev cur; simp [mergeLoop]
  | cons b rest ih =>
    intro prev cur
    by_cases h : should_merge tol prev b
    · rw [mergeLoop, if_pos h]
      exact le_trans (ih b _) (by simp)
    · rw [mergeLoop, if_neg h]
      simpa using ih b (startPara b)

/-- Each merge performed adds exactly one separator character: the total
content length plus the output count equals the total input length plus
the input count. -/
theorem merge_text_blocks_count (tol : Int) (blocks : List TextBlock)
    (hne : blocks ≠ []) :
    sumContentLen (merge_text_blocks tol blocks) +
        (merge_text_blocks tol blocks).length =
      sumTextLen blocks + blocks.length := by
  cases blocks with
  | nil => exact absurd rfl hne
  | cons b rest =>
    rw [merge_text_blocks]
    have hrec := mergeLoop_count tol rest b (startPara b)
    rw [startPara_content] at hrec
    rw [sumTextLen_cons, List.length_cons]
    omega

/-! ## Lemmas about `MarkdownGenerator.generate` -/

theorem genStep_counters (st : MDState) (ls : List String) (fs : List SavedImage)
    (e : MDElement) :
    (genStep (st, ls, fs) e).1 =
      ⟨st.table_counter + (if e.etype = "table" then 1 else 0),
       st.figure_counter + (if e.etype = "figure" then 1 else 0),
       st.formula_counter + (if e.etype = "formula" ∧ e.latex = "" then 1 else 0)⟩ := by
  unfold genStep
  split_ifs <;> simp_all

theorem foldl_genStep_counters :
    ∀ (elems : List MDElement) (st : MDState) (ls : List String)
      (fs : List SavedImage),
      (elems.foldl genStep (st, ls, fs)).1 =
        ⟨st.table_counter + elems.countP (fun e => decide (e.etype = "table")),
         st.figure_counter + elems.countP (fun e => decide (e.etype = "figure")),
         st.formula_counter +
           elems.countP (fun e => decide (e.etype = "formula" ∧ e.latex = ""))⟩ := by
  intro elems
  induction elems with
  | nil => intro st ls fs; simp [List.countP_nil]
  | cons e elems ih =>
    intro st ls fs
    rw [List.foldl_cons,
      show genStep (st, ls, fs) e =
        ((genStep (st, ls, fs) e).1, (genStep (st, ls, fs) e).2.1,
         (genStep (st, ls, fs) e).2.2) from rfl,
      ih, genStep_counters]
    simp only [List.countP_cons, decide_eq_true_eq, MDState.mk.injEq]
    refine ⟨?_, ?_, ?_⟩ <;> omega

/-- Each of the three counters advances by exactly the number of elements
of its own kind; `generate` never resets them. -/
theorem generate_counters (st : MDState) (elems : List MDElement) :
    (generate st elems).1 =
      ⟨st.table_counter + elems.countP (fun e => decide (e.etype = "table")),
       st.figure_counter + elems.countP (fun e => decide (e.etype = "figure")),
       st.formula_counter +
         elems.countP (fun e => decide (e.etype = "formula" ∧ e.latex = ""))⟩ :=
  foldl_genStep_counters elems st [] []

/-! ## Lemmas about `_extract_stats` -/

theorem statsLE_refl (s : Stats) : statsLE s s := by
  unfold statsLE
  exact ⟨le_refl _, le_refl _, le_refl _, le_refl _, le_refl _, le_refl _,
    le_refl _, le_refl _⟩

theorem statsAddBlock_images (s : Stats) (b : Block) :
    (statsAddBlock s b).total_images = s.total_images := by
  unfold statsAddBlock
  split_ifs <;> rfl

theorem foldl_statsAddBlock_images :
    ∀ (bs : List Block) (s : Stats),
      (bs.foldl statsAddBlock s).total_images = s.total_images := by
  intro bs
  induction bs with
  | nil => intro s; rfl
  | cons b bs ih => intro s; rw [List.foldl_cons, ih, statsAddBlock_images]

theorem statsPass1_total_images (cl : List Page) :
    (statsPass1 cl).total_images = 0 := by
  suffices h : ∀ (cl : List Page) (s : Stats),
      (cl.foldl statsAddPage s).total_images = s.total_images by
    exact h cl {}
  intro cl
  induction cl with
  | nil => intro s; rfl
  | cons p cl ih =>
    intro s
    rw [List.foldl_cons, ih, statsAddPage, foldl_statsAddBlock_images]

theorem statsPass2_mono (s : Stats) (i : Option Nat)
    (himg : s.total_images = 0) : statsLE s (statsPass2 s i) := by
  unfold statsPass2 statsLE
  cases i with
  | none => split_ifs <;> simp
  | some n => split_ifs with h <;> simp [h, himg]

theorem statsPass3_mono (s : Stats) (md : Option String) :
    statsLE s (statsPass3 s md) := by
  cases md with
  | none => exact statsLE_refl s
  | some m =>
    simp only [statsPass3, statsLE]
    split_ifs <;> simp_all <;> omega

theorem statsPass4_mono (s : Stats) (md : Option String) :
    statsLE s (statsPass4 s md) := by
  cases md with
  | none =>
    unfold statsPass4
    split_ifs <;> exact statsLE_refl s
  | some m =>
    unfold statsPass4
    split_ifs with h
    · unfold statsLE
      simp [h]
    · exact statsLE_refl s

/-! ## Lemmas about the orchestrator model -/

theorem useFallback_events (fb : FallbackWorld) :
    (useFallback fb).1 = [Ev.tryBasicExtraction] := rfl

theorem useFallback_ok {fb : FallbackWorld} {res : ProcResult}
    (h : (useFallback fb).2 = Except.ok res) :
    res.fallback_used = true ∧ res.mineru_success = false ∧
    ∃ text, pickText fb = some text ∧
      res.markdown = basicMarkdown fb.pdfName text fb.now ∧
      res.stats = fallback_generate_stats fb.pageCount text := by
  unfold useFallback at h
  cases hfp : fallbackProcess fb with
  | error e => rw [hfp] at h; cases h
  | ok r =>
    rw [hfp] at h
    cases h
    unfold fallbackProcess at hfp
    split_ifs at hfp with havail
    all_goals
      first
        | exact Except.noConfusion hfp
        | cases hpt : pickText fb with
          | none => rw [hpt] at hfp; exact Except.noConfusion hfp
          | some text =>
            rw [hpt] at hfp
            injection hfp with hr
            subst hr
            exact ⟨rfl, rfl, text, rfl, rfl, rfl⟩

theorem useFallback_isError (fb : FallbackWorld) :
    exceptIsError (useFallback fb).2 = exceptIsError (fallbackProcess fb) := by
  unfold useFallback
  cases fallbackProcess fb <;> rfl

theorem process_unavailable (w : JobWorld) :
    process ⟨false⟩ w =
      ⟨[Ev.tryBasicExtraction], false, (useFallback w.fb).2⟩ := by
  unfold process
  rw [if_neg (by exact Bool.false_ne_true)]
  rfl

theorem process_primary_ok (md : String) (cl : List Page) (imgs : Option Nat)
    (fb : FallbackWorld) :
    process ⟨true⟩ ⟨PrimaryOutcome.ok md cl imgs, fb⟩ =
      ⟨[Ev.mkTempDir, Ev.runPrimary], true,
       Except.ok ⟨md, extract_stats cl imgs (some md), true, false⟩⟩ := rfl

theorem process_primary_fail (p : PrimaryOutcome) (hfail : p.isOk = false)
    (fb : FallbackWorld) :
    process ⟨true⟩ ⟨p, fb⟩ =
      ⟨[Ev.mkTempDir, Ev.runPrimary, Ev.rmTempDir, Ev.tryBasicExtraction],
       false, (useFallback fb).2⟩ := by
  cases p with
  | ok md cl imgs => cases hfail
  | timeout => rfl
  | exitFailure c => rfl
  | missingOutput => rfl
  | readFailure => rfl

theorem initPipeline_fst (pr : Option Int) :
    (initPipeline pr).1 = ⟨checkMineruAvailable pr⟩ := rfl

theorem disclaimer_in_basicMarkdown (name text now : String) :
    ∃ l r, (basicMarkdown name text now).data =
      l ++ disclaimerBanner.data ++ r := by
  refine ⟨("# " ++ name ++ "\n\n").data,
    ("\n> MinerU处理失败，使用基本文本提取\n\n## 内容\n\n" ++ text ++
     "\n\n---\n*生成时间: " ++ now ++ "*\n*状态: 备用方案（基本文本提取）*\n").data, ?_⟩
  simp [basicMarkdown]

theorem fallback_result_stats {fb : FallbackWorld} {res : ProcResult}
    (hres : (useFallback fb).2 = Except.ok res) :
    res.stats.tables = 0 ∧ res.stats.figures = 0 ∧ res.stats.formulas = 0 ∧
    res.stats.total_elements = 0 ∧ res.stats.total_pages = fb.pageCount ∧
    ∃ text, pickText fb = some text ∧
      res.stats.word_count = wordCount text ∧
      res.stats.char_count = text.length := by
  obtain ⟨_, _, text, hpt, _, hstats⟩ := useFallback_ok hres
  rw [hstats]
  exact ⟨rfl, rfl, rfl, rfl, rfl, text, hpt, rfl, rfl⟩

theorem process_isError_iff (pr : Option Int) (w : JobWorld) :
    exceptIsError (process (initPipeline pr).1 w).result = true ↔
      ((checkMineruAvailable pr && w.primary.isOk) = false ∧
        exceptIsError (fallbackProcess w.fb) = true) := by
  cases w with
  | mk p fb =>
    rw [initPipeline_fst]
    cases hav : checkMineruAvailable pr with
    | false =>
      rw [process_unavailable]
      simp [useFallback_isError]
    | true =>
      cases p with
      | ok md cl imgs =>
        rw [process_primary_ok]
        simp [exceptIsError, PrimaryOutcome.isOk]
      | timeout =>
        rw [process_primary_fail (PrimaryOutcome.timeout) rfl fb]
        simp [useFallback_isError, PrimaryOutcome.isOk]
      | exitFailure c =>
        rw [process_primary_fail (PrimaryOutcome.exitFailure c) rfl fb]
        simp [useFallback_isError, PrimaryOutcome.isOk]
      | missingOutput =>
        rw [process_primary_fail (PrimaryOutcome.missingOutput) rfl fb]
        simp [useFallback_isError, PrimaryOutcome.isOk]
      | readFailure =>
        rw [process_primary_fail (PrimaryOutcome.readFailure) rfl fb]
        simp [useFallback_isError, PrimaryOutcome.isOk]

theorem process_tryBasic_iff (pr : Option Int) (w : JobWorld) :
    Ev.tryBasicExtraction ∈ (process (initPipeline pr).1 w).events ↔
      (checkMineruAvailable pr && w.primary.isOk) = false := by
  cases w with
  | mk p fb =>
    rw [initPipeline_fst]
    cases hav : checkMineruAvailable pr with
    | false =>
      rw [process_unavailable]
      simp
    | true =>
      cases p with
      | ok md cl imgs =>
        rw [process_primary_ok]
        simp [PrimaryOutcome.isOk]
      | timeout =>
        rw [process_primary_fail (PrimaryOutcome.timeout) rfl fb]
        simp [PrimaryOutcome.isOk]
      | exitFailure c =>
        rw [process_primary_fail (PrimaryOutcome.exitFailure c) rfl fb]
        simp [PrimaryOutcome.isOk]
      | missingOutput =>
        rw [process_primary_fail (PrimaryOutcome.missingOutput) rfl fb]
        simp [PrimaryOutcome.isOk]
      | readFailure =>
        rw [process_primary_fail (PrimaryOutcome.readFailure) rfl fb]
        simp [PrimaryOutcome.isOk]

theorem process_never_raster (pr : Option Int) (w : JobWorld) :
    Ev.tryRasterExtraction ∉ (process (initPipeline pr).1 w).events ∧
    Ev.tryPlumberExtraction ∉ (process (initPipeline pr).1 w).events := by
  cases w with
  | mk p fb =>
    rw [initPipeline_fst]
    cases hav : checkMineruAvailable pr with
    | false =>
      rw [process_unavailable]
      constructor <;> simp
    | true =>
      cases p with
      | ok md cl imgs =>
        rw [process_primary_ok]
        constructor <;> simp
      | timeout =>
        rw [process_primary_fail (PrimaryOutcome.timeout) rfl fb]
        constructor <;> simp
      | exitFailure c =>
        rw [process_primary_fail (PrimaryOutcome.exitFailure c) rfl fb]
        constructor <;> simp
      | missingOutput =>
        rw [process_primary_fail (PrimaryOutcome.missingOutput) rfl fb]
        constructor <;> simp
      | readFailure =>
        rw [process_primary_fail (PrimaryOutcome.readFailure) rfl fb]
        constructor <;> simp

theorem process_ok_fallback_markdown (pr : Option Int) (w : JobWorld) :
    ∀ res, (process (initPipeline pr).1 w).result = Except.ok res →
      res.fallback_used = true →
      ∃ text, pickText w.fb = some text ∧
        res.markdown = basicMarkdown w.fb.pdfName text w.fb.now := by
  cases w with
  | mk p fb =>
    rw [initPipeline_fst]
    intro res hres hfb
    cases hav : checkMineruAvailable pr with
    | false =>
      rw [hav, process_unavailable] at hres
      obtain ⟨_, _, text, hpt, hmd, _⟩ := useFallback_ok hres
      exact ⟨text, hpt, hmd⟩
    | true =>
      rw [hav] at hres
      cases p with
      | ok md cl imgs =>
        rw [process_primary_ok] at hres
        injection hres with h1
        rw [← h1] at hfb
        simp at hfb
      | timeout =>
        rw [process_primary_fail (PrimaryOutcome.timeout) rfl fb] at hres
        obtain ⟨_, _, text, hpt, hmd, _⟩ := useFallback_ok hres
        exact ⟨text, hpt, hmd⟩
      | exitFailure c =>
        rw [process_primary_fail (PrimaryOutcome.exitFailure c) rfl fb] at hres
        obtain ⟨_, _, text, hpt, hmd, _⟩ := useFallback_ok hres
        exact ⟨text, hpt, hmd⟩
      | missingOutput =>
        rw [process_primary_fail (PrimaryOutcome.missingOutput) rfl fb] at hres
        obtain ⟨_, _, text, hpt, hmd, _⟩ := useFallback_ok hres
        exact ⟨text, hpt, hmd⟩
      | readFailure =>
        rw [process_primary_fail (PrimaryOutcome.readFailure) rfl fb] at hres
        obtain ⟨_, _, text, hpt, hmd, _⟩ := useFallback_ok hres
        exact ⟨text, hpt, hmd⟩

/-! # Claim theorems -/

/-- C1, counterexample: the claim is false on the code.  With MinerU
available (probe exit 0) but timing out, and PyPDF2 importable but its
extraction raising, `process` raises to the caller even though the
claimed raster-extraction (PyMuPDF) and plain-text (pdfplumber)
strategies were never attempted: the chain `process` actually invokes
consists solely of the basic-extraction `FallbackPipeline`; the
three-strategy chain exists only in the never-called `PDFProcessor`. -/
theorem claim_C1_counterexample :
    exceptIsError (process (initPipeline (some 0)).1 cexJobWorld).result = true ∧
    ¬ ChainExhausted (process (initPipeline (some 0)).1 cexJobWorld).events := by
  decide

/-- C1, amended: `process(documentPath, outputDir)` raises to its caller
exactly when the primary path does not fully succeed and the single
implemented fallback strategy — basic text extraction through
`FallbackPipeline` (PyPDF2, or pypdf when PyPDF2 is not importable),
producing minimal Markdown with a fixed disclaimer banner — also fails;
every primary-engine failure (unavailable, timeout, non-zero exit,
missing output, unreadable output) is recovered by advancing to that
single strategy; no raster-extraction or pdfplumber strategy is ever
attempted. -/
theorem claim_C1_amended_fallback_contract (pr : Option Int) (w : JobWorld) :
    (exceptIsError (process (initPipeline pr).1 w).result = true ↔
      ((checkMineruAvailable pr && w.primary.isOk) = false ∧
        exceptIsError (fallbackProcess w.fb) = true)) ∧
    (Ev.tryBasicExtraction ∈ (process (initPipeline pr).1 w).events ↔
      (checkMineruAvailable pr && w.primary.isOk) = false) ∧
    Ev.tryRasterExtraction ∉ (process (initPipeline pr).1 w).events ∧
    Ev.tryPlumberExtraction ∉ (process (initPipeline pr).1 w).events ∧
    (∀ res, (process (initPipeline pr).1 w).result = Except.ok res →
      res.fallback_used = true →
      ∃ text, pickText w.fb = some text ∧
        res.markdown = basicMarkdown w.fb.pdfName text w.fb.now) ∧
    (∀ name text now, ∃ l r, (basicMarkdown name text now).data =
      l ++ disclaimerBanner.data ++ r) :=
  ⟨process_isError_iff pr w, process_tryBasic_iff pr w,
   (process_never_raster pr w).1, (process_never_raster pr w).2,
   process_ok_fallback_markdown pr w,
   fun name text now => disclaimer_in_basicMarkdown name text now⟩

/-- Witness for the amended C1 at a concrete world. -/
theorem claim_C1_witness :
    Ev.tryRasterExtraction ∉
      (process (initPipeline (some 0)).1 cexJobWorld).events :=
  (claim_C1_amended_fallback_contract (some 0) cexJobWorld).2.2.1

/-- C2: for every list of elements, `sort_reading_order` returns a
permutation of its input (no element created or dropped), and it is
idempotent: applying it to its own output returns that output unchanged
(for any non-negative tolerance, as configured — the default is 20). -/
theorem claim_C2_sort_perm_idem (tol : Int) (htol : 0 ≤ tol)
    (l : List Element) :
    List.Perm (sort_reading_order tol l) l ∧
    sort_reading_order tol (sort_reading_order tol l) =
      sort_reading_order tol l :=
  ⟨sort_reading_order_is_perm tol l, sort_reading_order_idem_aux htol l⟩

/-- Witness for C2 at tolerance 20 on the spec's three-element scenario. -/
theorem claim_C2_witness :
    0 ≤ (20 : Int) ∧
    (List.Perm (sort_reading_order 20 demoElems) demoElems ∧
     sort_reading_order 20 (sort_reading_order 20 demoElems) =
       sort_reading_order 20 demoElems) :=
  ⟨by decide, claim_C2_sort_perm_idem 20 (by decide) demoElems⟩

/-- C3, counterexample: the claim is false on the code.  With tolerance 20
and y-coordinates 0, 15, 30, the pair (y=15, y=30) is consecutive after
the y-sort and within tolerance of each other (|30-15| = 15 ≤ 20), yet
the two elements land in different lines, because `_group_by_lines`
compares each element against the line's anchor y (here 0), not against
the previous element. -/
theorem claim_C3_counterexample :
    ¬ (∀ p ∈ (sortByKey keyY cexElems).zip (sortByKey keyY cexElems).tail,
        |keyY p.2 - keyY p.1| ≤ 20 →
        ∃ B ∈ groupLines 20 (sortByKey keyY cexElems),
          p.1 ∈ B ∧ p.2 ∈ B) := by
  decide

/-- C3, amended: after the y-sort, an element joins the current line
exactly when its y1 is within the tolerance of the line's anchor y1 (the
y1 of the line's first element) — every member of a line is within
tolerance of the anchor, and each new line's anchor is farther than the
tolerance from the previous anchor — and elements within a line appear in
ascending x1 order in the output. -/
theorem claim_C3_amended_anchor_grouping (tol : Int) (htol : 0 ≤ tol)
    (l : List Element) :
    (∀ B ∈ groupLines tol (sortByKey keyY l),
      ∃ a, B.head? = some a ∧ ∀ e ∈ B, |keyY e - keyY a| ≤ tol) ∧
    List.Chain' (fun A B => ∃ x y, A.head? = some x ∧ B.head? = some y ∧
      tol < |keyY y - keyY x|) (groupLines tol (sortByKey keyY l)) ∧
    sort_reading_order tol l =
      ((groupLines tol (sortByKey keyY l)).map (sortByKey keyX)).flatten ∧
    ∀ B ∈ groupLines tol (sortByKey keyY l),
      List.Sorted (keyLE keyX) (sortByKey keyX B) := by
  refine ⟨?_, ?_, rfl, fun B _ => sortByKey_sorted keyX B⟩
  · cases hs : sortByKey keyY l with
    | nil =>
      intro B hB
      rw [groupLines] at hB
      cases hB
    | cons e rest =>
      rw [groupLines]
      refine groupAux_anchor htol rest [e] e rfl ?_
      intro c hc
      rcases List.mem_singleton.mp hc with rfl
      simpa using htol
  · cases hs : sortByKey keyY l with
    | nil =>
      rw [groupLines]
      exact List.chain'_nil
    | cons e rest =>
      rw [groupLines]
      exact groupAux_chain tol rest [e] e rfl

/-- Witness for the amended C3 at tolerance 20. -/
theorem claim_C3_witness :
    0 ≤ (20 : Int) ∧
    ∀ B ∈ groupLines 20 (sortByKey keyY cexElems),
      ∃ a, B.head? = some a ∧ ∀ e ∈ B, |keyY e - keyY a| ≤ 20 :=
  ⟨by decide, (claim_C3_amended_anchor_grouping 20 (by decide) cexElems).1⟩

/-- C4, counterexample: the claim is false on the code.  The counters are
set to zero in the constructor and `generate` never resets them: a second
`generate` call on the same generator numbers its table 2, writing
`table_2.png`, instead of restarting at 1. -/
theorem claim_C4_counterexample :
    ((generate (generate mdInitState [tableElem]).1 [tableElem]).2.2.map
        SavedImage.filename = ["table_2.png"]) ∧
    ((generate (generate mdInitState [tableElem]).1 [tableElem]).2.2.map
        SavedImage.filename ≠ ["table_1.png"]) := by
  constructor
  · rfl
  · decide

/-- C4, amended: the table/figure/formula counters are independent of each
other — a `generate` call advances each one by exactly the number of its
own element kind — but they are initialized (to zero) once at renderer
construction and persist across `generate` calls on the same renderer;
`generate` does not reset them, so a second call continues numbering
where the first stopped. -/
theorem claim_C4_amended_counters (st : MDState) (elems : List MDElement) :
    (generate st elems).1 =
      ⟨st.table_counter + elems.countP (fun e => decide (e.etype = "table")),
       st.figure_counter + elems.countP (fun e => decide (e.etype = "figure")),
       st.formula_counter + elems.countP
         (fun e => decide (e.etype = "formula" ∧ e.latex = ""))⟩ ∧
    mdInitState = ⟨0, 0, 0⟩ :=
  ⟨generate_counters st elems, rfl⟩

/-- C5: rendering a single `table` element saves exactly one cropped image
`table_<n>.png` (where `n` is the incremented table counter) and emits
exactly two Markdown lines: a bold "Table n" caption followed by exactly
one image reference with the relative `images/` path; the table is never
emitted as typeset text. -/
theorem claim_C5_table_render (st : MDState) (e : MDElement)
    (h : e.etype = "table") :
    generate st [e] =
      (⟨st.table_counter + 1, st.figure_counter, st.formula_counter⟩,
       ["**Table " ++ toString (st.table_counter + 1) ++ "**\n",
        "![Table " ++ toString (st.table_counter + 1) ++ "](images/table_" ++
          toString (st.table_counter + 1) ++ ".png)\n"],
       [⟨"table_" ++ toString (st.table_counter + 1) ++ ".png", e.page_num,
         e.x1, e.y1, e.x2, e.y2⟩]) := by
  unfold generate
  rw [List.foldl_cons, List.foldl_nil]
  simp only [genStep, h]
  rw [if_neg (by decide), if_neg (by decide)]
  simp

/-- Witness for C5 on a fresh renderer and a concrete table element. -/
theorem claim_C5_witness :
    tableElem.etype = "table" ∧
    generate mdInitState [tableElem] =
      (⟨0 + 1, 0, 0⟩,
       ["**Table " ++ toString (0 + 1) ++ "**\n",
        "![Table " ++ toString (0 + 1) ++ "](images/table_" ++
          toString (0 + 1) ++ ".png)\n"],
       [⟨"table_" ++ toString (0 + 1) ++ ".png", 0, 1, 2, 3, 4⟩]) :=
  ⟨rfl, claim_C5_table_render mdInitState tableElem rfl⟩

/-- C6: stats extraction is monotone across its backfill passes — no pass
ever lowers a count set by an earlier pass — and `_extract_stats` is their
composition; in the scenario with no structured manifest, three image
references in the Markdown and one image file on disk, the final figure
count is 3 (the Markdown cross-check raises over the on-disk count 1). -/
theorem claim_C6_stats_monotone :
    (∀ (cl : List Page) (i : Option Nat) (md : Option String),
      statsLE (statsPass1 cl) (statsPass2 (statsPass1 cl) i) ∧
      statsLE (statsPass2 (statsPass1 cl) i)
        (statsPass3 (statsPass2 (statsPass1 cl) i) md) ∧
      statsLE (statsPass3 (statsPass2 (statsPass1 cl) i) md)
        (statsPass4 (statsPass3 (statsPass2 (statsPass1 cl) i) md) md) ∧
      extract_stats cl i md =
        statsPass4 (statsPass3 (statsPass2 (statsPass1 cl) i) md) md) ∧
    (extract_stats [] (some 1) (some demoMarkdown)).figures = 3 :=
  ⟨fun cl i md =>
    ⟨statsPass2_mono _ i (statsPass1_total_images cl),
     statsPass3_mono _ md, statsPass4_mono _ md, rfl⟩,
   by decide⟩

/-- C7: when the availability probe returns a non-zero exit code or the
executable is missing, `process` invokes the fallback chain and never
attempts the primary engine's main invocation; the probe is run exactly
once, by the constructor, and the unavailable verdict persists — two
`process` calls on the same instance both skip the primary and neither
re-probes. -/
theorem claim_C7_probe_failure_persists (pr : Option Int)
    (w₁ w₂ : JobWorld) (h : pr = none ∨ ∃ c, pr = some c ∧ c ≠ 0) :
    (initPipeline pr).2 = [Ev.probe] ∧
    Ev.runPrimary ∉ (process (initPipeline pr).1 w₁).events ∧
    Ev.tryBasicExtraction ∈ (process (initPipeline pr).1 w₁).events ∧
    Ev.probe ∉ (process (initPipeline pr).1 w₁).events ∧
    Ev.runPrimary ∉ (process (initPipeline pr).1 w₂).events ∧
    Ev.probe ∉ (process (initPipeline pr).1 w₂).events := by
  have hav : checkMineruAvailable pr = false := by
    rcases h with rfl | ⟨c, rfl, hc⟩
    · rfl
    · cases c with
      | ofNat n =>
        cases n with
        | zero => exact absurd rfl hc
        | succ m => rfl
      | negSucc n => rfl
  have hp : (initPipeline pr).1 = ⟨false⟩ := by
    rw [initPipeline_fst, hav]
  rw [hp, process_unavailable w₁, process_unavailable w₂]
  refine ⟨rfl, by simp, by simp, by simp, by simp, by simp⟩

/-- Witness for C7 at probe exit code 1 and two concrete worlds. -/
theorem claim_C7_witness :
    ((some 1 : Option Int) = none ∨
      ∃ c, (some 1 : Option Int) = some c ∧ c ≠ 0) ∧
    (initPipeline (some 1)).2 = [Ev.probe] ∧
    Ev.runPrimary ∉ (process (initPipeline (some 1)).1 okJobWorld).events := by
  have h := claim_C7_probe_failure_persists (some 1) okJobWorld cexJobWorld
    (Or.inr ⟨1, rfl, by decide⟩)
  exact ⟨Or.inr ⟨1, rfl, by decide⟩, h.1, h.2.1⟩

/-- C8: when the primary invocation is attempted and fails (timeout,
non-zero exit, missing or unreadable output), the temporary working
directory no longer exists afterwards — it is deleted before the fallback
runs (the deletion event precedes the fallback event in the trace) — and
any successful result is marked as produced by the fallback engine. -/
theorem claim_C8_failed_primary_cleanup (pr : Option Int) (w : JobWorld)
    (hav : checkMineruAvailable pr = true) (hfail : w.primary.isOk = false) :
    (process (initPipeline pr).1 w).tempDirExists = false ∧
    List.Sublist [Ev.rmTempDir, Ev.tryBasicExtraction]
      (process (initPipeline pr).1 w).events ∧
    ∀ res, (process (initPipeline pr).1 w).result = Except.ok res →
      res.fallback_used = true := by
  have hp : (initPipeline pr).1 = ⟨true⟩ := by
    rw [initPipeline_fst, hav]
  cases w with
  | mk p fb =>
    rw [hp, process_primary_fail p hfail fb]
    refine ⟨rfl, ?_, ?_⟩
    · exact List.Sublist.cons _ (List.Sublist.cons _ (List.Sublist.refl _))
    · intro res hres
      exact (useFallback_ok hres).1

/-- Witness for C8 at a concrete timed-out job with a working fallback. -/
theorem claim_C8_witness :
    checkMineruAvailable (some 0) = true ∧
    okJobWorld.primary.isOk = false ∧
    (process (initPipeline (some 0)).1 okJobWorld).tempDirExists = false := by
  have h := claim_C8_failed_primary_cleanup (some 0) okJobWorld rfl rfl
  exact ⟨rfl, rfl, h.1⟩

/-- C9: `merge_text_blocks` replaces each maximal run of merged blocks by
one element whose bbox is the coordinate-wise min/max union of the run's
bboxes and whose content is the run's texts joined by single spaces, so
the total character count of the merged contents never exceeds the sum of
the inputs plus one separator character per merge performed (a merge
count equal to the number of inputs minus the number of outputs). -/
theorem claim_C9_merge_runs_and_char_bound (tol : Int)
    (blocks : List TextBlock) :
    merge_text_blocks tol blocks = (runs tol blocks).map mkParagraph ∧
    sumContentLen (merge_text_blocks tol blocks) ≤
      sumTextLen blocks +
        (blocks.length - (merge_text_blocks tol blocks).length) := by
  refine ⟨merge_text_blocks_eq_runs tol blocks, ?_⟩
  cases blocks with
  | nil => simp [merge_text_blocks, sumContentLen, sumTextLen]
  | cons b rest =>
    have hcount := merge_text_blocks_count tol (b :: rest) (by simp)
    have hlen : (merge_text_blocks tol (b :: rest)).length ≤
        (b :: rest).length := by
      rw [merge_text_blocks]
      simpa using mergeLoop_length_le tol rest b (startPara b)
    omega

/-- C10: whenever the basic text-extraction fallback path succeeds, the
stats of the returned result have tables, figures, formulas and
total_elements all zero; only total_pages, word_count and char_count
reflect the document — the Markdown cross-check passes are never applied
to fallback-produced output. -/
theorem claim_C10_fallback_stats_zero (pr : Option Int) (w : JobWorld)
    (res : ProcResult)
    (hres : (process (initPipeline pr).1 w).result = Except.ok res)
    (hfb : res.fallback_used = true) :
    res.stats.tables = 0 ∧ res.stats.figures = 0 ∧ res.stats.formulas = 0 ∧
    res.stats.total_elements = 0 ∧ res.stats.total_pages = w.fb.pageCount ∧
    ∃ text, pickText w.fb = some text ∧
      res.stats.word_count = wordCount text ∧
      res.stats.char_count = text.length := by
  cases w with
  | mk p fb =>
    rw [initPipeline_fst] at hres
    cases hav : checkMineruAvailable pr with
    | false =>
      rw [hav, process_unavailable] at hres
      exact fallback_result_stats hres
    | true =>
      rw [hav] at hres
      cases p with
      | ok md cl imgs =>
        rw [process_primary_ok] at hres
        injection hres with h1
        rw [← h1] at hfb
        simp at hfb
      | timeout =>
        rw [process_primary_fail (PrimaryOutcome.timeout) rfl fb] at hres
        exact fallback_result_stats hres
      | exitFailure c =>
        rw [process_primary_fail (PrimaryOutcome.exitFailure c) rfl fb] at hres
        exact fallback_result_stats hres
      | missingOutput =>
        rw [process_primary_fail (PrimaryOutcome.missingOutput) rfl fb] at hres
        exact fallback_result_stats hres
      | readFailure =>
        rw [process_primary_fail (PrimaryOutcome.readFailure) rfl fb] at hres
        exact fallback_result_stats hres

/-- Witness for C10 at a concrete fallback-successful job. -/
theorem claim_C10_witness :
    ((process (initPipeline (some 1)).1 okJobWorld).result =
      Except.ok okFallbackResult) ∧
    okFallbackResult.fallback_used = true ∧
    okFallbackResult.stats.tables = 0 := by
  have h := claim_C10_fallback_stats_zero (some 1) okJobWorld
    okFallbackResult rfl rfl
  exact ⟨rfl, rfl, h.1⟩

end PaperLoom
